import Mathlib

/-!
Verification development for the iROWikiPatcherTool repository
(`scripts/update_patch9.py`).

The script consists of four functions:
  * `get_changes`         — parses the tab-separated change report,
  * `current_patchfile`   — parses the manifest into an ordered mapping,
  * `update_file_entries` — rewrites the manifest lines and appends new
                            numbered entries,
  * `commit_and_push_file` — runs the git publication steps.

We embed the string-level behaviour over `PyStr := List Char`, mirroring the
Python operations used by the script (`str.strip`, `str.split(sep, 1)`,
`str.startswith`, `os.path.basename`, `str.endswith`, `int(...)`, f-strings,
`readlines`/`writelines`, `dict` insertion-order semantics).  Fallible
operations (the `ValueError` raised by a failing two-value unpack or by
`int(...)`) are modelled with `Option`.
-/

set_option maxRecDepth 10000

namespace UpdatePatch

/-- Python strings, modelled as lists of characters. -/
abbrev PyStr := List Char

/-- Convenience conversion from Lean string literals. -/
def pys (s : String) : PyStr := s.toList

/-- The ASCII whitespace characters stripped by Python `str.strip()`. -/
def pyIsSpace (c : Char) : Bool :=
  c == ' ' || c == '\t' || c == '\n' || c == '\r' || c == '\x0b' || c == '\x0c'

/-- Python `str.lstrip()`. -/
def lstrip (s : PyStr) : PyStr := s.dropWhile pyIsSpace

/-- Python `str.rstrip()`. -/
def rstrip (s : PyStr) : PyStr := (s.reverse.dropWhile pyIsSpace).reverse

/-- Python `str.strip()`. -/
def strip (s : PyStr) : PyStr := rstrip (lstrip s)

/-- Python `s.split(sep, 1)` followed by a two-value unpack.
`none` models the `ValueError` raised when `sep` does not occur in `s`
(the split yields a single element and the unpack fails). -/
def split1 (sep : Char) : PyStr → Option (PyStr × PyStr)
  | [] => none
  | c :: rest =>
    if c = sep then some ([], rest)
    else
      match split1 sep rest with
      | none => none
      | some (a, b) => some (c :: a, b)

/-- Python `s.startswith("//")`. -/
def startsSlashSlash : PyStr → Bool
  | '/' :: '/' :: _ => true
  | _ => false

/-- Python `os.path.basename`: the part of the path after the last slash. -/
def basename (s : PyStr) : PyStr :=
  (s.reverse.takeWhile (fun c => c ≠ '/')).reverse

/-- Python `s.endswith(t)`. -/
def pyEndsWith (s t : PyStr) : Bool :=
  decide (s.reverse.take t.length = t.reverse)

/-- Lookup in an insertion-ordered association list (Python `k in d` /
`d[k]` combined: `some v` when the key is present). -/
def lookupKey (k : PyStr) : List (PyStr × PyStr) → Option PyStr
  | [] => none
  | (a, b) :: rest => if a = k then some b else lookupKey k rest

/-- Python `d[k] = v` on an insertion-ordered dictionary: an existing key
keeps its position and gets the new value, a new key is appended. -/
def dictSet (d : List (PyStr × PyStr)) (k v : PyStr) : List (PyStr × PyStr) :=
  if (lookupKey k d).isSome then d.map (fun p => if p.1 = k then (k, v) else p)
  else d ++ [(k, v)]

/-- Python file iteration / `readlines`: split a text into lines, every line
keeping its trailing newline; the final line may lack one.  The accumulator
holds the characters of the current line in reverse. -/
def readlinesAux : PyStr → PyStr → List PyStr
  | [], acc => if acc = [] then [] else [acc.reverse]
  | c :: rest, acc =>
    if c = '\n' then (acc.reverse ++ ['\n']) :: readlinesAux rest []
    else readlinesAux rest (c :: acc)

/-- Python `f.readlines()` on a file whose content is `s`. -/
def readlines (s : PyStr) : List PyStr := readlinesAux s []

/-- Python `f.writelines(ls)`: the lines are concatenated verbatim. -/
def joinLines (ls : List PyStr) : PyStr := ls.foldr (· ++ ·) []

/-- Python `s.splitlines()`: the lines of `s` with terminators removed. -/
def pySplitlines (s : PyStr) : List PyStr :=
  (readlines s).map (fun l => if l.getLast? = some '\n' then l.dropLast else l)

/-! ### `get_changes` (`update_patch9.py` lines 8–32)

Reads the change report; skips blank lines; splits each remaining line on the
first tab into `(status, filename)`; keeps only filenames ending in `.rgz` or
`.gpf`; records `(basename filename, status)` pairs in encounter order. -/

/-- One loop iteration of `get_changes`, starting from accumulator `acc`. -/
def get_changes_from (acc : List (PyStr × PyStr)) : List PyStr → Option (List (PyStr × PyStr))
  | [] => some acc
  | line :: rest =>
    let stripped := strip line
    if stripped = [] then get_changes_from acc rest
    else
      match split1 '\t' stripped with
      | none => none
      | some (status, filename) =>
        if pyEndsWith filename (pys ".rgz") || pyEndsWith filename (pys ".gpf") then
          get_changes_from (acc ++ [(basename filename, status)]) rest
        else
          get_changes_from acc rest

/-- `get_changes()`: parse the change-report lines.  `none` models the
uncaught `ValueError` of the tab split on a non-blank, tab-less line. -/
def get_changes (lines : List PyStr) : Option (List (PyStr × PyStr)) :=
  get_changes_from [] lines

/-! ### `current_patchfile` (`update_patch9.py` lines 35–59)

Reads the manifest; every line whose stripped form does not start with `//`
is split on the first space of the *raw* line into `(num, file)` and stored
as `current[num] = file.strip()` in an insertion-ordered dictionary. -/

/-- One loop iteration of `current_patchfile`. -/
def cp_step (acc : List (PyStr × PyStr)) (line : PyStr) : Option (List (PyStr × PyStr)) :=
  if startsSlashSlash (strip line) then some acc
  else
    match split1 ' ' line with
    | none => none
    | some (num, file) => some (dictSet acc num (strip file))

/-- The loop of `current_patchfile`, starting from accumulator `acc`. -/
def current_patchfile_from (acc : List (PyStr × PyStr)) : List PyStr → Option (List (PyStr × PyStr))
  | [] => some acc
  | line :: rest =>
    match cp_step acc line with
    | none => none
    | some acc2 => current_patchfile_from acc2 rest

/-- `current_patchfile()`: parse the manifest lines into the ordered
identifier → filename mapping.  `none` models the uncaught `ValueError`
of the space split. -/
def current_patchfile (lines : List PyStr) : Option (List (PyStr × PyStr)) :=
  current_patchfile_from [] lines

/-! ### `update_file_entries` (`update_patch9.py` lines 62–122)

Partitions the change records into a deleted set, an added list, and a
modified set; scans `valid_entries` in reverse insertion order to record the
last occurrence of every deleted/modified filename; computes the next free
number as `max(map(int, valid_entries.keys()), default=0) + 1`; rewrites the
original lines, prefixing `//` to the active lines whose `(num, filename)`
matches a recorded last occurrence; finally appends `f"\n{n} {filename}"`
lines for the added files and then for the modified files from a shared
incrementing counter.

The Python code iterates the *set* `modified_files` in the final loop; the
iteration order of a CPython `str` set is unspecified (it depends on hash
randomisation), so the embedding takes that order as an explicit parameter
`modOrder`.  A legal order is any duplicate-free enumeration of the distinct
modified filenames, i.e. any permutation of `modifiedDedup changes`. -/

/-- The set comprehension for deleted files: membership view. -/
def deletedFiles (changes : List (PyStr × PyStr)) : List PyStr :=
  (changes.filter (fun p => decide (p.2 = pys "D"))).map Prod.fst

/-- The list comprehension for added files (encounter order, duplicates kept). -/
def added_files (changes : List (PyStr × PyStr)) : List PyStr :=
  (changes.filter (fun p => decide (p.2 = pys "A"))).map Prod.fst

/-- The set comprehension for modified files: membership view. -/
def modifiedFiles (changes : List (PyStr × PyStr)) : List PyStr :=
  (changes.filter (fun p => decide (p.2 = pys "M"))).map Prod.fst

/-- The distinct modified filenames; a legal iteration order of the Python
set `modified_files` is any permutation of this list. -/
def modifiedDedup (changes : List (PyStr × PyStr)) : List PyStr :=
  (modifiedFiles changes).dedup

/-- The `last_occurrences` loop: iterate the reversed `(num, filename)`
entries, recording `last_occurrences[filename] = num` for the first
deleted/modified filename occurrence not yet recorded. -/
def last_occurrences_from (changes : List (PyStr × PyStr)) :
    List (PyStr × PyStr) → List (PyStr × PyStr) → List (PyStr × PyStr)
  | [], acc => acc
  | (num, filename) :: rest, acc =>
    last_occurrences_from changes rest
      (if (filename ∈ deletedFiles changes ∨ filename ∈ modifiedFiles changes)
          ∧ lookupKey filename acc = none
       then acc ++ [(filename, num)] else acc)

/-- `last_occurrences` as computed from `valid_entries` (reverse insertion
order scan). -/
def last_occurrences (changes : List (PyStr × PyStr))
    (valid_entries : List (PyStr × PyStr)) : List (PyStr × PyStr) :=
  last_occurrences_from changes valid_entries.reverse []

/-- Python `int(s)` on the decimal strings the script handles: optional
surrounding whitespace, an optional sign, then at least one digit. -/
def digitsValAux : List Char → Nat → Option Nat
  | [], acc => some acc
  | c :: rest, acc =>
    if c.isDigit then digitsValAux rest (acc * 10 + (c.toNat - 48)) else none

/-- The value of a nonempty all-digit string. -/
def digitsVal (cs : List Char) : Option Nat :=
  if cs = [] then none else digitsValAux cs 0

/-- Python `int(s)`; `none` models the `ValueError` on a malformed string. -/
def pyInt (s : PyStr) : Option Int :=
  match strip s with
  | '-' :: rest => (digitsVal rest).map (fun n => -(n : Int))
  | '+' :: rest => (digitsVal rest).map (fun n => (n : Int))
  | rest => (digitsVal rest).map (fun n => (n : Int))

/-- `map(int, valid_entries.keys())`; `none` if any key fails to parse. -/
def keyInts : List (PyStr × PyStr) → Option (List Int)
  | [] => some []
  | (num, _) :: rest =>
    match pyInt num, keyInts rest with
    | some n, some ns => some (n :: ns)
    | _, _ => none

/-- `max(map(int, valid_entries.keys()), default=0) + 1`. -/
def next_number (valid_entries : List (PyStr × PyStr)) : Option Int :=
  (keyInts valid_entries).map
    (fun ns => (match ns with | [] => 0 | x :: xs => xs.foldl max x) + 1)

/-- The per-line body of the update loop: keep commented lines, otherwise
split the stripped line on the first space and prefix `//` exactly when the
`(num, filename)` pair matches a recorded last occurrence. -/
def comment_line (lo : List (PyStr × PyStr)) (line : PyStr) : Option PyStr :=
  let stripped := strip line
  if startsSlashSlash stripped then some line
  else
    match split1 ' ' stripped with
    | none => none
    | some (num, filename) =>
      if lookupKey filename lo = some num then some ('/' :: '/' :: line)
      else some line

/-- The update loop over all original lines. -/
def comment_lines (lo : List (PyStr × PyStr)) : List PyStr → Option (List PyStr)
  | [] => some []
  | l :: rest =>
    match comment_line lo l, comment_lines lo rest with
    | some l2, some rest2 => some (l2 :: rest2)
    | _, _ => none

/-- The decimal rendering used by the f-string `f"\n{next_number} {filename}"`. -/
def intToStr (n : Int) : PyStr :=
  if n < 0 then '-' :: Nat.toDigits 10 n.natAbs else Nat.toDigits 10 n.toNat

/-- The appended line `f"\n{n} {filename}"`. -/
def new_entry_line (n : Int) (f : PyStr) : PyStr :=
  '\n' :: (intToStr n ++ ' ' :: f)

/-- One append loop with its running counter; returns the appended lines
and the final counter value. -/
def append_entries : Int → List PyStr → List PyStr × Int
  | n, [] => ([], n)
  | n, f :: fs =>
    let r := append_entries (n + 1) fs
    (new_entry_line n f :: r.1, r.2)

/-- `update_file_entries(file_path, valid_entries, github_changes)`, acting
on the raw lines read from the file; the written content is the
concatenation (`writelines`) of the returned lines.  `modOrder` is the
iteration order of the Python set `modified_files` (see above).  `none`
models the uncaught `ValueError` of `int(...)` or of the space split. -/
def update_file_entries (lines : List PyStr) (valid_entries : List (PyStr × PyStr))
    (github_changes : List (PyStr × PyStr)) (modOrder : List PyStr) :
    Option (List PyStr) :=
  let lo := last_occurrences github_changes valid_entries
  match next_number valid_entries with
  | none => none
  | some n =>
    match comment_lines lo lines with
    | none => none
    | some updated =>
      let ra := append_entries n (added_files github_changes)
      let rm := append_entries ra.2 modOrder
      some (updated ++ ra.1 ++ rm.1)

/-- The updater at the level of whole file contents: read (`readlines`),
update, write back (`writelines`). -/
def update_text (text : PyStr) (valid_entries : List (PyStr × PyStr))
    (github_changes : List (PyStr × PyStr)) (modOrder : List PyStr) :
    Option PyStr :=
  (update_file_entries (readlines text) valid_entries github_changes modOrder).map joinLines

/-! ### `commit_and_push_file` (`update_patch9.py` lines 125–152)

Five `subprocess.run(..., check=True)` calls inside a `try` block; a
`subprocess.CalledProcessError` (nonzero exit of any step) is caught by the
single `except` clause, which prints an error message and does not re-raise.
The success or failure of each external git command is taken as an oracle
input. -/

/-- The external git commands issued, in program order. -/
inductive GitCmd
  | configName
  | configEmail
  | add
  | commit
  | push
deriving DecidableEq, Repr

/-- The exception class caught by the `except` clause. -/
inductive GitError
  | calledProcessError
deriving DecidableEq

/-- Observable outcome of a `commit_and_push_file` run. -/
structure PublishResult where
  /-- The external commands attempted, in order. -/
  attempted : List GitCmd
  /-- Whether the success message was printed. -/
  printedSuccess : Bool
  /-- Whether the error message of the `except` clause was printed. -/
  printedError : Bool
  /-- Whether an exception escapes to the caller. -/
  raised : Bool
deriving DecidableEq

/-- The exception-plus-trace monad for the `try` block: exceptions of the
caught class, over a state recording the commands attempted so far. -/
abbrev GitM := ExceptT GitError (StateM (List GitCmd))

/-- `subprocess.run([...], check=True)`: record the attempt, then raise
`CalledProcessError` when the command exits nonzero. -/
def subprocess_run (c : GitCmd) (ok : Bool) : GitM Unit := do
  modify (fun t => t ++ [c])
  if ok then pure () else throw GitError.calledProcessError

/-- The body of the `try` block: the five git steps in order. -/
def commit_and_push_body (okName okEmail okAdd okCommit okPush : Bool) : GitM Unit := do
  subprocess_run GitCmd.configName okName
  subprocess_run GitCmd.configEmail okEmail
  subprocess_run GitCmd.add okAdd
  subprocess_run GitCmd.commit okCommit
  subprocess_run GitCmd.push okPush

/-- `commit_and_push_file`: run the `try` block; on success print the
success message, on `CalledProcessError` print the error message; in either
case no exception propagates to the caller. -/
def commit_and_push_file (okName okEmail okAdd okCommit okPush : Bool) : PublishResult :=
  match (commit_and_push_body okName okEmail okAdd okCommit okPush).run [] with
  | (Except.ok _, trace) =>
    { attempted := trace, printedSuccess := true, printedError := false, raised := false }
  | (Except.error _, trace) =>
    { attempted := trace, printedSuccess := false, printedError := true, raised := false }

/-! ### Derived descriptions used in the statements -/

/-- The entry the reverse scan records for filename `f`: the identifier of
the last entry (in insertion order) of the mapping whose value is `f`. -/
def lastEntryFor (ve : List (PyStr × PyStr)) (f : PyStr) : Option PyStr :=
  (ve.reverse.find? (fun p => decide (p.2 = f))).map Prod.fst

/-- The total description of what the update loop does to one line that it
processes successfully. -/
def rewrite_line (lo : List (PyStr × PyStr)) (line : PyStr) : PyStr :=
  if startsSlashSlash (strip line) then line
  else
    match split1 ' ' (strip line) with
    | none => line
    | some (num, filename) =>
      if lookupKey filename lo = some num then '/' :: '/' :: line else line

/-- The parse of one non-comment manifest line: the raw line split on its
first space, the stored value stripped (exactly what `current_patchfile`
computes for that line). -/
def parseManifestLine (l : PyStr) : Option (PyStr × PyStr) :=
  (split1 ' ' l).map (fun p => (p.1, strip p.2))

/-- The parses of all non-comment lines of a manifest, in file order. -/
def manifestPairs : List PyStr → Option (List (PyStr × PyStr))
  | [] => some []
  | l :: rest =>
    if startsSlashSlash (strip l) then manifestPairs rest
    else
      match parseManifestLine l, manifestPairs rest with
      | some p, some ps => some (p :: ps)
      | _, _ => none

/-! ### Helper lemmas on the string primitives -/

theorem mem_of_mem_dropWhile {p : Char → Bool} {x : Char} :
    ∀ {s : List Char}, x ∈ s.dropWhile p → x ∈ s := by
  intro s
  induction s with
  | nil => intro h; exact absurd h (List.not_mem_nil x)
  | cons c rest ih =>
    intro h
    by_cases hc : p c
    · rw [List.dropWhile_cons_of_pos hc] at h
      exact List.mem_cons_of_mem c (ih h)
    · rw [List.dropWhile_cons_of_neg (by simpa using hc)] at h
      exact h

theorem mem_of_mem_strip {x : Char} {s : PyStr} (h : x ∈ strip s) : x ∈ s := by
  unfold strip rstrip lstrip at h
  rw [List.mem_reverse] at h
  have h1 : x ∈ (s.dropWhile pyIsSpace).reverse := mem_of_mem_dropWhile h
  rw [List.mem_reverse] at h1
  exact mem_of_mem_dropWhile h1

theorem split1_eq_none_iff (sep : Char) :
    ∀ s : PyStr, split1 sep s = none ↔ sep ∉ s := by
  intro s
  induction s with
  | nil => simp [split1]
  | cons c rest ih =>
    by_cases hc : c = sep
    · subst hc
      simp [split1]
    · cases h : split1 sep rest with
      | none =>
        have hrest : sep ∉ rest := ih.mp h
        have hsc : ¬sep = c := fun he => hc he.symm
        simp [split1, hc, h, List.mem_cons, hsc, hrest]
      | some p =>
        have hrest : sep ∈ rest := by
          by_contra hn
          rw [← ih] at hn
          rw [h] at hn
          exact Option.noConfusion hn
        simp [split1, hc, h, List.mem_cons, hrest]

theorem lookupKey_append (k : PyStr) (l1 l2 : List (PyStr × PyStr)) :
    lookupKey k (l1 ++ l2) =
      (match lookupKey k l1 with
       | some v => some v
       | none => lookupKey k l2) := by
  induction l1 with
  | nil => simp [lookupKey]
  | cons p rest ih =>
    by_cases hp : p.1 = k
    · simp [lookupKey, hp]
    · simpa [lookupKey, hp] using ih

@[simp] theorem joinLines_nil : joinLines [] = [] := rfl

@[simp] theorem joinLines_cons (l : PyStr) (ls : List PyStr) :
    joinLines (l :: ls) = l ++ joinLines ls := rfl

theorem joinLines_append (a b : List PyStr) :
    joinLines (a ++ b) = joinLines a ++ joinLines b := by
  induction a with
  | nil => simp
  | cons l rest ih => simp [ih]

theorem joinLines_readlinesAux :
    ∀ (s : PyStr) (acc : PyStr), joinLines (readlinesAux s acc) = acc.reverse ++ s := by
  intro s
  induction s with
  | nil =>
    intro acc
    by_cases h : acc = [] <;> simp [readlinesAux, h]
  | cons c rest ih =>
    intro acc
    by_cases hc : c = '\n'
    · subst hc
      simp [readlinesAux, ih]
    · simp [readlinesAux, hc, ih (c :: acc)]

/-- `writelines` after `readlines` reproduces the file content. -/
theorem joinLines_readlines (s : PyStr) : joinLines (readlines s) = s := by
  simpa using joinLines_readlinesAux s []

theorem ne_nil_of_mem_readlinesAux :
    ∀ (s : PyStr) (acc : PyStr) (l : PyStr), l ∈ readlinesAux s acc → l ≠ [] := by
  intro s
  induction s with
  | nil =>
    intro acc l hl
    by_cases h : acc = []
    · simp [readlinesAux, h] at hl
    · simp only [readlinesAux, if_neg h, List.mem_singleton] at hl
      subst hl
      simpa using h
  | cons c rest ih =>
    intro acc l hl
    by_cases hc : c = '\n'
    · subst hc
      have hl2 : l = acc.reverse ++ ['\n'] ∨ l ∈ readlinesAux rest [] := by
        simpa [readlinesAux] using hl
      rcases hl2 with hl2 | hl2
      · subst hl2; simp
      · exact ih [] l hl2
    · simp only [readlinesAux, if_neg hc] at hl
      exact ih (c :: acc) l hl

/-- Every line produced by `readlines` is nonempty. -/
theorem ne_nil_of_mem_readlines {s l : PyStr} (h : l ∈ readlines s) : l ≠ [] :=
  ne_nil_of_mem_readlinesAux s [] l h

/-- The last character of the concatenation of a nonempty list of nonempty
lines is the last character of the last line. -/
theorem joinLines_getLast? :
    ∀ ls : List PyStr, (∀ l ∈ ls, l ≠ []) → ls ≠ [] →
      ∃ last, ls.getLast? = some last ∧ (joinLines ls).getLast? = last.getLast? := by
  intro ls
  induction ls with
  | nil => intro _ h; exact absurd rfl h
  | cons l rest ih =>
    intro hne _
    by_cases hr : rest = []
    · subst hr
      exact ⟨l, rfl, by simp⟩
    · obtain ⟨last, h1, h2⟩ := ih (fun x hx => hne x (List.mem_cons_of_mem l hx)) hr
      refine ⟨last, ?_, ?_⟩
      · rw [← h1]
        cases rest with
        | nil => exact absurd rfl hr
        | cons b t => simp [List.getLast?_cons_cons]
      · have hlast : last ≠ [] := by
          have : last ∈ rest := by
            rcases List.mem_getLast?_eq_getLast (Option.mem_def.mpr h1) with ⟨hh, he⟩
            exact he ▸ List.getLast_mem hh
          exact hne last (List.mem_cons_of_mem l this)
        have hjr : joinLines rest ≠ [] := by
          intro hcon
          rw [hcon] at h2
          cases hl : last.getLast? with
          | none => exact hlast (List.getLast?_eq_none_iff.mp hl)
          | some c => rw [hl] at h2; exact Option.noConfusion h2
        rw [joinLines_cons, List.getLast?_append_of_ne_nil l hjr, h2]

/-! ### Characterisation of `last_occurrences` -/

theorem lookupKey_last_occurrences_from (ch : List (PyStr × PyStr)) (f : PyStr) :
    ∀ (rl acc : List (PyStr × PyStr)),
      lookupKey f (last_occurrences_from ch rl acc) =
        (match lookupKey f acc with
         | some v => some v
         | none =>
           if f ∈ deletedFiles ch ∨ f ∈ modifiedFiles ch
           then (rl.find? (fun p => decide (p.2 = f))).map Prod.fst
           else none) := by
  intro rl
  induction rl with
  | nil =>
    intro acc
    cases h : lookupKey f acc with
    | some v => simp [last_occurrences_from, h]
    | none => simp [last_occurrences_from, h]
  | cons e rl ih =>
    intro acc
    obtain ⟨num, fname⟩ := e
    show lookupKey f (last_occurrences_from ch rl _) = _
    rw [ih]
    by_cases hf : fname = f
    · subst hf
      cases hacc : lookupKey fname acc with
      | some v => simp [hacc]
      | none =>
        by_cases hmark : fname ∈ deletedFiles ch ∨ fname ∈ modifiedFiles ch
        · simp [hmark, hacc, lookupKey_append, lookupKey, List.find?]
        · simp [hmark, hacc]
    · have hfind : List.find? (fun p => decide (p.2 = f)) ((num, fname) :: rl) =
          List.find? (fun p => decide (p.2 = f)) rl := by
        simp [List.find?, hf]
      by_cases hcond : (fname ∈ deletedFiles ch ∨ fname ∈ modifiedFiles ch)
          ∧ lookupKey fname acc = none
      · rw [if_pos hcond, lookupKey_append]
        have : lookupKey f [(fname, num)] = none := by simp [lookupKey, hf]
        cases hacc : lookupKey f acc with
        | some v => simp [hacc]
        | none => simp [hacc, lookupKey, hf, hfind]
      · rw [if_neg hcond, hfind]

/-- The dictionary built by the reverse scan, described directly: `f` is
recorded exactly when it is deleted or modified and occurs in the mapping,
and the identifier recorded is that of the last entry for `f` in insertion
order. -/
theorem lookupKey_last_occurrences (ch ve : List (PyStr × PyStr)) (f : PyStr) :
    lookupKey f (last_occurrences ch ve) =
      (if f ∈ deletedFiles ch ∨ f ∈ modifiedFiles ch
       then lastEntryFor ve f else none) := by
  rw [last_occurrences, lookupKey_last_occurrences_from ch f ve.reverse []]
  rfl

/-- A filename that is not a value of the mapping has no last entry. -/
theorem lastEntryFor_eq_none (ve : List (PyStr × PyStr)) (f : PyStr)
    (h : ∀ p ∈ ve, p.2 ≠ f) : lastEntryFor ve f = none := by
  unfold lastEntryFor
  rw [List.find?_eq_none.mpr]
  · rfl
  · intro p hp
    simpa using h p (List.mem_reverse.mp hp)

/-! ### Characterisation of the rewrite loop -/

theorem comment_line_eq_some {lo : List (PyStr × PyStr)} {l x : PyStr}
    (h : comment_line lo l = some x) : x = rewrite_line lo l := by
  unfold comment_line at h
  unfold rewrite_line
  by_cases hc : startsSlashSlash (strip l)
  · simp only [hc, if_true] at h ⊢
    exact (Option.some_inj.mp h).symm
  · simp only [hc, Bool.false_eq_true, if_false] at h ⊢
    cases hs : split1 ' ' (strip l) with
    | none => rw [hs] at h; exact Option.noConfusion h
    | some p =>
      obtain ⟨num, filename⟩ := p
      rw [hs] at h
      simp only at h ⊢
      by_cases hl : lookupKey filename lo = some num
      · simp only [hl, if_true] at h ⊢
        exact (Option.some_inj.mp h).symm
      · simp only [hl, if_false] at h ⊢
        exact (Option.some_inj.mp h).symm

theorem comment_lines_eq_map {lo : List (PyStr × PyStr)} :
    ∀ {ls us : List PyStr}, comment_lines lo ls = some us →
      us = ls.map (rewrite_line lo) := by
  intro ls
  induction ls with
  | nil =>
    intro us h
    simpa [comment_lines] using (Option.some_inj.mp h).symm
  | cons l rest ih =>
    intro us h
    unfold comment_lines at h
    cases h1 : comment_line lo l with
    | none => rw [h1] at h; exact Option.noConfusion h
    | some l2 =>
      cases h2 : comment_lines lo rest with
      | none => rw [h1, h2] at h; exact Option.noConfusion h
      | some rest2 =>
        rw [h1, h2] at h
        have := Option.some_inj.mp h
        subst this
        rw [List.map_cons, comment_line_eq_some h1, ih h2]

/-- Each processed line is passed through or prefixed with `//`. -/
theorem rewrite_line_cases (lo : List (PyStr × PyStr)) (l : PyStr) :
    rewrite_line lo l = l ∨ rewrite_line lo l = '/' :: '/' :: l := by
  unfold rewrite_line
  by_cases hc : startsSlashSlash (strip l)
  · left; simp [hc]
  · simp only [hc, Bool.false_eq_true, if_false]
    cases hs : split1 ' ' (strip l) with
    | none => left; rfl
    | some p =>
      obtain ⟨num, filename⟩ := p
      by_cases hl : lookupKey filename lo = some num
      · right; simp [hl]
      · left; simp [hl]

/-- A blank (or whitespace-only) line makes the update loop fail: the line
is not a comment and the space split of its empty stripped form fails. -/
theorem comment_lines_none_of_blank {lo : List (PyStr × PyStr)} {ls : List PyStr} {l : PyStr}
    (hl : l ∈ ls) (hb : strip l = []) : comment_lines lo ls = none := by
  have hline : comment_line lo l = none := by
    unfold comment_line
    rw [hb]
    rfl
  induction ls with
  | nil => exact absurd hl (List.not_mem_nil l)
  | cons a rest ih =>
    rcases List.mem_cons.mp hl with h | h
    · subst h
      unfold comment_lines
      rw [hline]
    · unfold comment_lines
      cases h1 : comment_line lo a with
      | none => rfl
      | some a2 => rw [ih h]

/-! ### Characterisation of the append loops and of `next_number` -/

theorem append_entries_snd : ∀ (fs : List PyStr) (n : Int),
    (append_entries n fs).2 = n + fs.length := by
  intro fs
  induction fs with
  | nil => intro n; simp [append_entries]
  | cons f rest ih =>
    intro n
    simp only [append_entries, ih (n + 1), List.length_cons]
    push_cast
    ring

theorem append_entries_fst_length : ∀ (fs : List PyStr) (n : Int),
    (append_entries n fs).1.length = fs.length := by
  intro fs
  induction fs with
  | nil => intro n; simp [append_entries]
  | cons f rest ih => intro n; simp [append_entries, ih (n + 1)]

theorem append_entries_append : ∀ (a b : List PyStr) (n : Int),
    (append_entries n (a ++ b)).1 =
      (append_entries n a).1 ++ (append_entries (n + a.length) b).1 := by
  intro a
  induction a with
  | nil => intro b n; simp [append_entries]
  | cons f rest ih =>
    intro b n
    show new_entry_line n f :: (append_entries (n + 1) (rest ++ b)).1 = _
    rw [ih b (n + 1)]
    have h2 : n + 1 + (rest.length : Int) = n + (((f :: rest).length : Nat) : Int) := by
      push_cast [List.length_cons]
      ring
    rw [h2]
    rfl

theorem append_entries_getD : ∀ (fs : List PyStr) (n : Int) (k : Nat), k < fs.length →
    (append_entries n fs).1.getD k [] = new_entry_line (n + k) (fs.getD k []) := by
  intro fs
  induction fs with
  | nil => intro n k hk; simp at hk
  | cons f rest ih =>
    intro n k hk
    cases k with
    | zero => simp [append_entries]
    | succ k =>
      have hk2 : k < rest.length := by simpa using hk
      simp only [append_entries, List.getD_cons_succ]
      rw [ih (n + 1) k hk2]
      have : n + 1 + (k : Int) = n + ((k : Int) + 1) := by ring
      rw [this]
      push_cast
      ring_nf

/-- Every appended line starts with the newline of the f-string. -/
theorem mem_append_entries : ∀ (fs : List PyStr) (n : Int) (l : PyStr),
    l ∈ (append_entries n fs).1 → ∃ m f, f ∈ fs ∧ l = new_entry_line m f := by
  intro fs
  induction fs with
  | nil => intro n l h; simp [append_entries] at h
  | cons g rest ih =>
    intro n l h
    simp only [append_entries, List.mem_cons] at h
    rcases h with h | h
    · exact ⟨n, g, List.mem_cons_self g rest, h⟩
    · obtain ⟨m, f, hf, hl⟩ := ih (n + 1) l h
      exact ⟨m, f, List.mem_cons_of_mem g hf, hl⟩

theorem foldl_max_le : ∀ (xs : List Int) (x y : Int), y ∈ x :: xs → y ≤ xs.foldl max x := by
  intro xs
  induction xs with
  | nil =>
    intro x y h
    have hx : y = x := by simpa using h
    simp [hx]
  | cons a rest ih =>
    intro x y h
    have hstep : ∀ z, z ∈ (max x a) :: rest → z ≤ rest.foldl max (max x a) := ih (max x a)
    rw [List.foldl_cons]
    rcases List.mem_cons.mp h with h | h
    · subst h
      exact le_trans (le_max_left y a) (hstep (max y a) (List.mem_cons_self _ _))
    · rcases List.mem_cons.mp h with h | h
      · subst h
        exact le_trans (le_max_right x y) (hstep (max x y) (List.mem_cons_self _ _))
      · exact hstep y (List.mem_cons_of_mem _ h)

theorem foldl_max_mem : ∀ (xs : List Int) (x : Int), xs.foldl max x ∈ x :: xs := by
  intro xs
  induction xs with
  | nil => intro x; simp
  | cons a rest ih =>
    intro x
    have h := ih (max x a)
    rcases List.mem_cons.mp h with h | h
    · rcases max_choice x a with hm | hm <;> rw [List.foldl_cons, h, hm]
      · exact List.mem_cons_self _ _
      · exact List.mem_cons_of_mem _ (List.mem_cons_self _ _)
    · exact List.mem_cons_of_mem _ (List.mem_cons_of_mem _ h)

theorem keyInts_mem_bound : ∀ (ve : List (PyStr × PyStr)) (ks : List Int),
    keyInts ve = some ks → ∀ p ∈ ve, ∀ m, pyInt p.1 = some m → m ∈ ks := by
  intro ve
  induction ve with
  | nil => intro ks _ p hp; exact absurd hp (List.not_mem_nil p)
  | cons e rest ih =>
    intro ks hks p hp m hm
    obtain ⟨num, v⟩ := e
    unfold keyInts at hks
    cases h1 : pyInt num with
    | none => rw [h1] at hks; exact Option.noConfusion hks
    | some n0 =>
      cases h2 : keyInts rest with
      | none => rw [h1, h2] at hks; exact Option.noConfusion hks
      | some ns =>
        rw [h1, h2] at hks
        have hks2 := Option.some_inj.mp hks
        subst hks2
        rcases List.mem_cons.mp hp with h | h
        · subst h
          simp only at hm
          rw [h1] at hm
          exact (Option.some_inj.mp hm) ▸ List.mem_cons_self _ _
        · exact List.mem_cons_of_mem _ (ih ns h2 p h m hm)

theorem keyInts_back : ∀ (ve : List (PyStr × PyStr)) (ks : List Int),
    keyInts ve = some ks → ∀ k ∈ ks, ∃ p, p ∈ ve ∧ pyInt p.1 = some k := by
  intro ve
  induction ve with
  | nil =>
    intro ks hks k hk
    have : ks = [] := (Option.some_inj.mp hks).symm
    subst this
    exact absurd hk (List.not_mem_nil k)
  | cons e rest ih =>
    intro ks hks k hk
    obtain ⟨num, v⟩ := e
    unfold keyInts at hks
    cases h1 : pyInt num with
    | none => rw [h1] at hks; exact Option.noConfusion hks
    | some n0 =>
      cases h2 : keyInts rest with
      | none => rw [h1, h2] at hks; exact Option.noConfusion hks
      | some ns =>
        rw [h1, h2] at hks
        have hks2 := Option.some_inj.mp hks
        subst hks2
        rcases List.mem_cons.mp hk with h | h
        · subst h
          exact ⟨(num, v), List.mem_cons_self _ _, h1⟩
        · obtain ⟨p, hp, hpk⟩ := ih ns h2 k h
          exact ⟨p, List.mem_cons_of_mem _ hp, hpk⟩

theorem keyInts_nil_iff : ∀ (ve : List (PyStr × PyStr)) (ks : List Int),
    keyInts ve = some ks → (ks = [] ↔ ve = []) := by
  intro ve ks hks
  cases ve with
  | nil =>
    have : ks = [] := (Option.some_inj.mp hks).symm
    simp [this]
  | cons e rest =>
    obtain ⟨num, v⟩ := e
    unfold keyInts at hks
    cases h1 : pyInt num with
    | none => rw [h1] at hks; exact Option.noConfusion hks
    | some n0 =>
      cases h2 : keyInts rest with
      | none => rw [h1, h2] at hks; exact Option.noConfusion hks
      | some ns =>
        rw [h1, h2] at hks
        have hks2 := Option.some_inj.mp hks
        subst hks2
        simp

/-- `next_number` is one more than the greatest integer value of a mapping
key (`1` on the empty mapping), and every key parses below it. -/
theorem next_number_spec (ve : List (PyStr × PyStr)) (n : Int)
    (h : next_number ve = some n) :
    (∀ p ∈ ve, ∀ m, pyInt p.1 = some m → m < n) ∧
    (ve = [] → n = 1) ∧
    (ve ≠ [] → ∃ p, p ∈ ve ∧ pyInt p.1 = some (n - 1)) := by
  unfold next_number at h
  cases hks : keyInts ve with
  | none => rw [hks] at h; exact Option.noConfusion h
  | some ks =>
    rw [hks] at h
    cases ks with
    | nil =>
      have hn : (0 : Int) + 1 = n := by simpa using h
      have hve : ve = [] := (keyInts_nil_iff ve [] hks).mp rfl
      subst hve
      refine ⟨fun p hp => absurd hp (List.not_mem_nil p), fun _ => by omega, fun hne => absurd rfl hne⟩
    | cons x xs =>
      have hn : xs.foldl max x + 1 = n := by simpa using h
      have hvne : ve ≠ [] := by
        intro hcon
        have := (keyInts_nil_iff ve (x :: xs) hks).mpr hcon
        exact List.noConfusion this
      refine ⟨?_, ?_, ?_⟩
      · intro p hp m hm
        have hmem : m ∈ x :: xs := keyInts_mem_bound ve (x :: xs) hks p hp m hm
        have := foldl_max_le xs x m hmem
        omega
      · intro hcon
        exact absurd hcon hvne
      · intro _
        have hmem : xs.foldl max x ∈ x :: xs := foldl_max_mem xs x
        obtain ⟨p, hp, hpk⟩ := keyInts_back ve (x :: xs) hks (xs.foldl max x) hmem
        refine ⟨p, hp, ?_⟩
        rw [hpk]
        congr 1
        omega

/-! ### Characterisation of `update_file_entries` -/

/-- Successful runs of `update_file_entries`, decomposed: the rewritten
original lines followed by the rendered new entries for the added files and
then the set-ordered modified files, numbered from `next_number` on. -/
theorem update_eq_some {lines : List PyStr} {ve ch : List (PyStr × PyStr)}
    {mo : List PyStr} {out : List PyStr}
    (h : update_file_entries lines ve ch mo = some out) :
    ∃ n updated, next_number ve = some n ∧
      comment_lines (last_occurrences ch ve) lines = some updated ∧
      out = updated ++ (append_entries n (added_files ch ++ mo)).1 := by
  simp only [update_file_entries] at h
  cases hn : next_number ve with
  | none => rw [hn] at h; exact Option.noConfusion h
  | some n =>
    rw [hn] at h
    cases hc : comment_lines (last_occurrences ch ve) lines with
    | none => rw [hc] at h; exact Option.noConfusion h
    | some updated =>
      rw [hc] at h
      have hout := Option.some_inj.mp h
      refine ⟨n, updated, rfl, rfl, ?_⟩
      have hsplit : (append_entries n (added_files ch ++ mo)).1 =
          (append_entries n (added_files ch)).1 ++
            (append_entries ((append_entries n (added_files ch)).2) mo).1 := by
        rw [append_entries_append, append_entries_snd]
      rw [← hout, hsplit, List.append_assoc]

/-- Conversely, a blank (or whitespace-only) original line makes the run
fail with the unpack `ValueError`. -/
theorem update_none_of_blank {lines : List PyStr} (ve ch : List (PyStr × PyStr))
    (mo : List PyStr) {l : PyStr} (hl : l ∈ lines) (hb : strip l = []) :
    update_file_entries lines ve ch mo = none := by
  simp only [update_file_entries]
  cases hn : next_number ve with
  | none => rfl
  | some n => rw [comment_lines_none_of_blank hl hb]

/-- A legal iteration order of the set `modified_files` enumerates exactly
the modified filenames. -/
theorem mem_modOrder_iff {ch : List (PyStr × PyStr)} {mo : List PyStr}
    (h : List.Perm mo (modifiedDedup ch)) (f : PyStr) :
    f ∈ mo ↔ f ∈ modifiedFiles ch := by
  rw [h.mem_iff, modifiedDedup, List.mem_dedup]

/-- A legal iteration order of the set `modified_files` has no duplicates. -/
theorem modOrder_nodup {ch : List (PyStr × PyStr)} {mo : List PyStr}
    (h : List.Perm mo (modifiedDedup ch)) : mo.Nodup :=
  h.nodup_iff.mpr (List.nodup_dedup _)

/-- With an empty change list nothing is recorded for deactivation. -/
theorem lookupKey_last_occurrences_nil (ve : List (PyStr × PyStr)) (f : PyStr) :
    lookupKey f (last_occurrences [] ve) = none := by
  rw [lookupKey_last_occurrences]
  simp [deletedFiles, modifiedFiles]

/-- A line is passed through unchanged when nothing is recorded. -/
theorem rewrite_line_eq_self {lo : List (PyStr × PyStr)}
    (hlo : ∀ f, lookupKey f lo = none) (l : PyStr) : rewrite_line lo l = l := by
  unfold rewrite_line
  by_cases hc : startsSlashSlash (strip l)
  · simp [hc]
  · simp only [hc, Bool.false_eq_true, if_false]
    cases hs : split1 ' ' (strip l) with
    | none => rfl
    | some p =>
      obtain ⟨num, filename⟩ := p
      simp [hlo filename]

/-! ### The claims -/

/-- C2: on the manifest whose lines are `1 a.rgz` and `2 b.gpf`, with change
records `(a.rgz, Modified)` and `(c.rgz, Added)` (as parsed from the change
report `M\tpath/a.rgz`, `A\tpath/c.rgz`), the Manifest Updater produces the
manifest whose lines are, in order, `//1 a.rgz`, `2 b.gpf`, `3 c.rgz`,
`4 a.rgz`: the original lines first with the deactivation applied in place,
then the added entry, then the modified entry, identifiers assigned in that
order.  (`[pys "a.rgz"]` is the unique legal iteration order of the
one-element modified set.) -/
theorem claim2 :
    get_changes [pys "M\tpath/a.rgz\n", pys "A\tpath/c.rgz\n"] =
        some [(pys "a.rgz", pys "M"), (pys "c.rgz", pys "A")] ∧
    current_patchfile (readlines (pys "1 a.rgz\n2 b.gpf")) =
        some [(pys "1", pys "a.rgz"), (pys "2", pys "b.gpf")] ∧
    List.Perm [pys "a.rgz"]
        (modifiedDedup [(pys "a.rgz", pys "M"), (pys "c.rgz", pys "A")]) ∧
    update_text (pys "1 a.rgz\n2 b.gpf")
        [(pys "1", pys "a.rgz"), (pys "2", pys "b.gpf")]
        [(pys "a.rgz", pys "M"), (pys "c.rgz", pys "A")] [pys "a.rgz"] =
      some (pys "//1 a.rgz\n2 b.gpf\n3 c.rgz\n4 a.rgz") ∧
    pySplitlines (pys "//1 a.rgz\n2 b.gpf\n3 c.rgz\n4 a.rgz") =
      [pys "//1 a.rgz", pys "2 b.gpf", pys "3 c.rgz", pys "4 a.rgz"] := by
  refine ⟨by decide, by decide, by decide, by decide, by decide⟩

/-- C1, counterexample: on a manifest whose identifiers are out of
insertion order (`2 a.rgz` then `1 a.rgz`) and a deletion of `a.rgz`, the
code deactivates the *last-listed* occurrence (identifier `1`), while the
highest-numbered occurrence (identifier `2`) stays active — contradicting
the claim that the highest-numbered occurrence is the one rewritten. -/
theorem claim1_counterexample :
    current_patchfile [pys "2 a.rgz\n", pys "1 a.rgz\n"] =
        some [(pys "2", pys "a.rgz"), (pys "1", pys "a.rgz")] ∧
    update_file_entries [pys "2 a.rgz\n", pys "1 a.rgz\n"]
        [(pys "2", pys "a.rgz"), (pys "1", pys "a.rgz")]
        [(pys "a.rgz", pys "D")] [] =
      some [pys "2 a.rgz\n", pys "//1 a.rgz\n"] := by
  refine ⟨by decide, by decide⟩

/-- C4, counterexample: the text `1 a.rgz\n\n2 c.rgz` is producible by the
Updater (from `1 a.rgz\n` plus an added `c.rgz`), yet re-running with an
empty change list on it fails — the Manifest Reader fails on its blank
line, and so does the Updater — instead of reproducing the input, so the
Updater is not idempotent on every text it can produce. -/
theorem claim4_counterexample :
    update_text (pys "1 a.rgz\n") [(pys "1", pys "a.rgz")]
        [(pys "c.rgz", pys "A")] [] = some (pys "1 a.rgz\n\n2 c.rgz") ∧
    current_patchfile (readlines (pys "1 a.rgz\n")) = some [(pys "1", pys "a.rgz")] ∧
    current_patchfile (readlines (pys "1 a.rgz\n\n2 c.rgz")) = none ∧
    update_text (pys "1 a.rgz\n\n2 c.rgz")
        [(pys "1", pys "a.rgz"), (pys "2", pys "c.rgz")] [] [] = none := by
  refine ⟨by decide, by decide, by decide, by decide⟩

/-- C5, counterexample: with two distinct modified filenames, encountered
as `a.rgz` then `b.rgz`, the order `[b.rgz, a.rgz]` is a legal iteration
order of the CPython set `modified_files`, and under it the appended
modified entries come out as `2 b.rgz` then `3 a.rgz` — not in encounter
order as the claim states. -/
theorem claim5_counterexample :
    List.Perm [pys "b.rgz", pys "a.rgz"]
        (modifiedDedup [(pys "a.rgz", pys "M"), (pys "b.rgz", pys "M")]) ∧
    update_file_entries [pys "1 x.rgz\n"] [(pys "1", pys "x.rgz")]
        [(pys "a.rgz", pys "M"), (pys "b.rgz", pys "M")]
        [pys "b.rgz", pys "a.rgz"] =
      some [pys "1 x.rgz\n", pys "\n2 b.rgz", pys "\n3 a.rgz"] := by
  refine ⟨by decide, by decide⟩

/-- C9, counterexample: on the manifest consisting of the whitespace-only
line `" \n"`, the Manifest Reader does *not* raise — the raw line contains
a space, so the two-value unpack succeeds and the line is parsed into an
empty identifier and empty filename — contradicting the claim that both
the Reader and the Updater raise on every blank or whitespace-only line. -/
theorem claim9_counterexample :
    strip (pys " \n") = [] ∧
    current_patchfile [pys " \n"] = some [(pys "", pys "")] := by
  refine ⟨by decide, by decide⟩

/-- C8: for every outcome of the five external git commands, the Publisher
never propagates the command failure: the steps run in order, a failing
step (the single caught class `CalledProcessError`) stops the run there,
the remaining steps are skipped, the error message is printed instead of
the success message, and no exception escapes. -/
theorem claim8 : ∀ okName okEmail okAdd okCommit okPush : Bool,
    (commit_and_push_file okName okEmail okAdd okCommit okPush).raised = false ∧
    ((commit_and_push_file okName okEmail okAdd okCommit okPush).printedError =
      !(okName && okEmail && okAdd && okCommit && okPush)) ∧
    ((commit_and_push_file okName okEmail okAdd okCommit okPush).printedSuccess =
      (okName && okEmail && okAdd && okCommit && okPush)) ∧
    ((commit_and_push_file okName okEmail okAdd okCommit okPush).attempted =
      (([(GitCmd.configName, okName), (GitCmd.configEmail, okEmail), (GitCmd.add, okAdd),
         (GitCmd.commit, okCommit), (GitCmd.push, okPush)].takeWhile (fun s => s.2)).map Prod.fst)
        ++ ((([(GitCmd.configName, okName), (GitCmd.configEmail, okEmail), (GitCmd.add, okAdd),
         (GitCmd.commit, okCommit), (GitCmd.push, okPush)].dropWhile (fun s => s.2)).head?.map
           Prod.fst).toList)) := by
  decide

/-- C1 (amended): for every manifest, active-entry mapping, change list and
legal modified-set order, a successful run of the Updater rewrites the
original lines in place, each line either kept verbatim or prefixed `//`
(content preserved, never removed); an active line is deactivated exactly
when its parsed `(identifier, filename)` pair has a deleted or modified
filename and its identifier is that of the *last-listed* (most recently
inserted) mapping entry for that filename — the highest-numbered occurrence
only when identifiers are inserted in increasing order; all other lines are
unchanged, and a deleted or modified filename absent from the mapping
causes no deactivation at all. -/
theorem claim1_amended (lines : List PyStr) (ve ch : List (PyStr × PyStr))
    (mo out : List PyStr)
    (hup : update_file_entries lines ve ch mo = some out) :
    (∃ tail, out = lines.map (rewrite_line (last_occurrences ch ve)) ++ tail) ∧
    (∀ l, rewrite_line (last_occurrences ch ve) l = l ∨
          rewrite_line (last_occurrences ch ve) l = '/' :: '/' :: l) ∧
    (∀ l num f, startsSlashSlash (strip l) = false →
        split1 ' ' (strip l) = some (num, f) →
        (rewrite_line (last_occurrences ch ve) l = '/' :: '/' :: l ↔
          (f ∈ deletedFiles ch ∨ f ∈ modifiedFiles ch) ∧ lastEntryFor ve f = some num)) ∧
    (∀ l num f, split1 ' ' (strip l) = some (num, f) →
        (∀ p ∈ ve, p.2 ≠ f) →
        rewrite_line (last_occurrences ch ve) l = l) := by
  obtain ⟨n, updated, hn, hc, hout⟩ := update_eq_some hup
  have hmap := comment_lines_eq_map hc
  refine ⟨⟨(append_entries n (added_files ch ++ mo)).1, by rw [hout, hmap]⟩,
      fun l => rewrite_line_cases _ l, ?_, ?_⟩
  · intro l num f hcm hs
    have hlk := lookupKey_last_occurrences ch ve f
    constructor
    · intro hrw
      simp only [rewrite_line, hcm, Bool.false_eq_true, if_false, hs] at hrw
      by_cases hk : lookupKey f (last_occurrences ch ve) = some num
      · rw [hlk] at hk
        by_cases hmark : f ∈ deletedFiles ch ∨ f ∈ modifiedFiles ch
        · rw [if_pos hmark] at hk
          exact ⟨hmark, hk⟩
        · rw [if_neg hmark] at hk
          exact Option.noConfusion hk
      · rw [if_neg hk] at hrw
        have hlen := congrArg List.length hrw
        simp at hlen
        omega
    · rintro ⟨hmark, hle⟩
      have hk : lookupKey f (last_occurrences ch ve) = some num := by
        rw [hlk, if_pos hmark, hle]
      simp [rewrite_line, hcm, hs, hk]
  · intro l num f hs habs
    have hnone : lastEntryFor ve f = none := lastEntryFor_eq_none ve f habs
    have hk : lookupKey f (last_occurrences ch ve) = none := by
      rw [lookupKey_last_occurrences]
      by_cases hmark : f ∈ deletedFiles ch ∨ f ∈ modifiedFiles ch
      · rw [if_pos hmark, hnone]
      · rw [if_neg hmark]
    unfold rewrite_line
    by_cases hcm : startsSlashSlash (strip l)
    · simp [hcm]
    · simp [hcm, hs, hk]

/-- C1, witness: the amended statement applied to the manifest `1 a.rgz`
with `a.rgz` modified. -/
theorem claim1_witness :
    update_file_entries [pys "1 a.rgz\n"] [(pys "1", pys "a.rgz")]
        [(pys "a.rgz", pys "M")] [pys "a.rgz"] =
      some [pys "//1 a.rgz\n", pys "\n2 a.rgz"] ∧
    ((∃ tail, [pys "//1 a.rgz\n", pys "\n2 a.rgz"] =
        [pys "1 a.rgz\n"].map
          (rewrite_line (last_occurrences [(pys "a.rgz", pys "M")]
            [(pys "1", pys "a.rgz")])) ++ tail) ∧
     (∀ l, rewrite_line (last_occurrences [(pys "a.rgz", pys "M")]
            [(pys "1", pys "a.rgz")]) l = l ∨
           rewrite_line (last_occurrences [(pys "a.rgz", pys "M")]
            [(pys "1", pys "a.rgz")]) l = '/' :: '/' :: l) ∧
     (∀ l num f, startsSlashSlash (strip l) = false →
        split1 ' ' (strip l) = some (num, f) →
        (rewrite_line (last_occurrences [(pys "a.rgz", pys "M")]
            [(pys "1", pys "a.rgz")]) l = '/' :: '/' :: l ↔
          (f ∈ deletedFiles [(pys "a.rgz", pys "M")] ∨
           f ∈ modifiedFiles [(pys "a.rgz", pys "M")]) ∧
          lastEntryFor [(pys "1", pys "a.rgz")] f = some num)) ∧
     (∀ l num f, split1 ' ' (strip l) = some (num, f) →
        (∀ p ∈ [(pys "1", pys "a.rgz")], p.2 ≠ f) →
        rewrite_line (last_occurrences [(pys "a.rgz", pys "M")]
            [(pys "1", pys "a.rgz")]) l = l)) :=
  ⟨by decide,
   claim1_amended [pys "1 a.rgz\n"] [(pys "1", pys "a.rgz")]
     [(pys "a.rgz", pys "M")] [pys "a.rgz"]
     [pys "//1 a.rgz\n", pys "\n2 a.rgz"] (by decide)⟩

/-- C4 (amended): with an empty change list the Updater either fails or
returns the manifest text unchanged; so idempotence holds exactly on the
texts where the empty-change re-run succeeds — and the counterexample shows
some texts the Updater itself produces (those with a blank line, created by
appending entries to a newline-terminated manifest) make the re-run fail
instead. -/
theorem claim4_amended (text : PyStr) (ve : List (PyStr × PyStr)) :
    update_text text ve [] [] = none ∨ update_text text ve [] [] = some text := by
  cases h : update_file_entries (readlines text) ve [] [] with
  | none =>
    left
    unfold update_text
    rw [h]
    rfl
  | some out =>
    right
    obtain ⟨n, updated, hn, hc, hout⟩ := update_eq_some h
    have hmap := comment_lines_eq_map hc
    have happ : (append_entries n (added_files ([] : List (PyStr × PyStr))
        ++ ([] : List PyStr))).1 = [] := rfl
    have hfun : rewrite_line (last_occurrences ([] : List (PyStr × PyStr)) ve) =
        fun l => l :=
      funext (fun l => rewrite_line_eq_self (lookupKey_last_occurrences_nil ve) l)
    have hsame : out = readlines text := by
      rw [hout, happ, List.append_nil, hmap, hfun, List.map_id']
    unfold update_text
    rw [h, hsame]
    simp [joinLines_readlines]

/-- C3: a successful run appends exactly one new entry per added filename
occurrence (duplicates included, in encounter order), then exactly one per
distinct modified filename (the duplicate-free set enumeration `mo`), and
none for a deleted filename; the k-th appended entry (0-based) is the line
`\n(n+k) name` where `n = next_number ve` is one more than the maximum
existing identifier of the mapping (or `1` when the mapping is empty), so
appended identifiers are strictly increasing and never reuse an existing
identifier. -/
theorem claim3 (lines : List PyStr) (ve ch : List (PyStr × PyStr)) (mo out : List PyStr)
    (hmo : List.Perm mo (modifiedDedup ch))
    (hup : update_file_entries lines ve ch mo = some out) :
    ∃ n updated, next_number ve = some n ∧
      comment_lines (last_occurrences ch ve) lines = some updated ∧
      out = updated ++ (append_entries n (added_files ch ++ mo)).1 ∧
      (out.drop updated.length).length = (added_files ch).length + mo.length ∧
      (∀ k, k < (added_files ch ++ mo).length →
        (out.drop updated.length).getD k [] =
          new_entry_line (n + k) ((added_files ch ++ mo).getD k [])) ∧
      (∀ p ∈ ve, ∀ m, pyInt p.1 = some m → m < n) ∧
      (ve = [] → n = 1) ∧
      (ve ≠ [] → ∃ p, p ∈ ve ∧ pyInt p.1 = some (n - 1)) ∧
      mo.Nodup ∧
      (∀ f, f ∈ mo ↔ f ∈ modifiedFiles ch) ∧
      (∀ f, f ∈ added_files ch ++ mo → f ∈ added_files ch ∨ f ∈ modifiedFiles ch) := by
  obtain ⟨n, updated, hn, hc, hout⟩ := update_eq_some hup
  obtain ⟨hbound, hnil, hattain⟩ := next_number_spec ve n hn
  have hdrop : out.drop updated.length = (append_entries n (added_files ch ++ mo)).1 := by
    rw [hout, List.drop_left]
  refine ⟨n, updated, hn, hc, hout, ?_, ?_, hbound, hnil, hattain,
      modOrder_nodup hmo, mem_modOrder_iff hmo, ?_⟩
  · rw [hdrop, append_entries_fst_length, List.length_append]
  · intro k hk
    rw [hdrop, append_entries_getD _ _ _ hk]
  · intro f hf
    rcases List.mem_append.mp hf with hf | hf
    · exact Or.inl hf
    · exact Or.inr ((mem_modOrder_iff hmo f).mp hf)

/-- C3, witness: the statement applied to the manifest `1 a.rgz` with
`b.rgz` added, `a.rgz` modified and `x.gpf` (absent) deleted. -/
theorem claim3_witness :
    List.Perm [pys "a.rgz"]
      (modifiedDedup [(pys "b.rgz", pys "A"), (pys "a.rgz", pys "M"), (pys "x.gpf", pys "D")]) ∧
    update_file_entries [pys "1 a.rgz\n"] [(pys "1", pys "a.rgz")]
        [(pys "b.rgz", pys "A"), (pys "a.rgz", pys "M"), (pys "x.gpf", pys "D")]
        [pys "a.rgz"] =
      some [pys "//1 a.rgz\n", pys "\n2 b.rgz", pys "\n3 a.rgz"] ∧
    (∃ n updated,
      next_number [(pys "1", pys "a.rgz")] = some n ∧
      comment_lines
          (last_occurrences
            [(pys "b.rgz", pys "A"), (pys "a.rgz", pys "M"), (pys "x.gpf", pys "D")]
            [(pys "1", pys "a.rgz")])
          [pys "1 a.rgz\n"] = some updated ∧
      [pys "//1 a.rgz\n", pys "\n2 b.rgz", pys "\n3 a.rgz"] =
        updated ++ (append_entries n
          (added_files
            [(pys "b.rgz", pys "A"), (pys "a.rgz", pys "M"), (pys "x.gpf", pys "D")]
            ++ [pys "a.rgz"])).1 ∧
      ([pys "//1 a.rgz\n", pys "\n2 b.rgz", pys "\n3 a.rgz"].drop updated.length).length =
        (added_files
          [(pys "b.rgz", pys "A"), (pys "a.rgz", pys "M"), (pys "x.gpf", pys "D")]).length
          + [pys "a.rgz"].length ∧
      (∀ k, k < (added_files
            [(pys "b.rgz", pys "A"), (pys "a.rgz", pys "M"), (pys "x.gpf", pys "D")]
            ++ [pys "a.rgz"]).length →
        ([pys "//1 a.rgz\n", pys "\n2 b.rgz", pys "\n3 a.rgz"].drop updated.length).getD k [] =
          new_entry_line (n + k)
            ((added_files
                [(pys "b.rgz", pys "A"), (pys "a.rgz", pys "M"), (pys "x.gpf", pys "D")]
                ++ [pys "a.rgz"]).getD k [])) ∧
      (∀ p ∈ [(pys "1", pys "a.rgz")], ∀ m, pyInt p.1 = some m → m < n) ∧
      ([(pys "1", pys "a.rgz")] = ([] : List (PyStr × PyStr)) → n = 1) ∧
      ([(pys "1", pys "a.rgz")] ≠ ([] : List (PyStr × PyStr)) →
        ∃ p, p ∈ [(pys "1", pys "a.rgz")] ∧ pyInt p.1 = some (n - 1)) ∧
      List.Nodup [pys "a.rgz"] ∧
      (∀ f, f ∈ [pys "a.rgz"] ↔
        f ∈ modifiedFiles
          [(pys "b.rgz", pys "A"), (pys "a.rgz", pys "M"), (pys "x.gpf", pys "D")]) ∧
      (∀ f, f ∈ added_files
            [(pys "b.rgz", pys "A"), (pys "a.rgz", pys "M"), (pys "x.gpf", pys "D")]
            ++ [pys "a.rgz"] →
        f ∈ added_files
            [(pys "b.rgz", pys "A"), (pys "a.rgz", pys "M"), (pys "x.gpf", pys "D")] ∨
        f ∈ modifiedFiles
            [(pys "b.rgz", pys "A"), (pys "a.rgz", pys "M"), (pys "x.gpf", pys "D")])) :=
  ⟨by decide, by decide,
   claim3 [pys "1 a.rgz\n"] [(pys "1", pys "a.rgz")]
     [(pys "b.rgz", pys "A"), (pys "a.rgz", pys "M"), (pys "x.gpf", pys "D")]
     [pys "a.rgz"] [pys "//1 a.rgz\n", pys "\n2 b.rgz", pys "\n3 a.rgz"]
     (by decide) (by decide)⟩

/-- C5 (amended): output ordering of a successful run — unchanged entries
keep their original position and deactivations happen in place (the output
starts with the in-place rewrite of the original lines), and all newly
assigned entries are appended at the end, each beginning on its own new
line: first the added filenames in encounter order, then the modified
filenames in the iteration order of the Python set `modified_files`, which
is some duplicate-free enumeration of the distinct modified filenames but
is *not* guaranteed to be their encounter order. -/
theorem claim5_amended (lines : List PyStr) (ve ch : List (PyStr × PyStr))
    (mo out : List PyStr)
    (hmo : List.Perm mo (modifiedDedup ch))
    (hup : update_file_entries lines ve ch mo = some out) :
    ∃ n, next_number ve = some n ∧
      out = lines.map (rewrite_line (last_occurrences ch ve))
          ++ (append_entries n (added_files ch)).1
          ++ (append_entries (n + ((added_files ch).length : Int)) mo).1 ∧
      added_files ch = (ch.filter (fun p => decide (p.2 = pys "A"))).map Prod.fst ∧
      List.Perm mo (((ch.filter (fun p => decide (p.2 = pys "M"))).map Prod.fst).dedup) ∧
      (∀ l ∈ (append_entries n (added_files ch ++ mo)).1, l.head? = some '\n') := by
  obtain ⟨n, updated, hn, hc, hout⟩ := update_eq_some hup
  have hmap := comment_lines_eq_map hc
  refine ⟨n, hn, ?_, rfl, hmo, ?_⟩
  · rw [hout, hmap, append_entries_append, List.append_assoc]
  · intro l hl
    obtain ⟨m, f, hf, hlf⟩ := mem_append_entries _ _ _ hl
    rw [hlf]
    rfl

/-- C5, witness: the amended statement applied to a run with one added and
one modified filename. -/
theorem claim5_witness :
    List.Perm [pys "m.rgz"]
      (modifiedDedup [(pys "n.gpf", pys "A"), (pys "m.rgz", pys "M")]) ∧
    update_file_entries [pys "1 m.rgz\n"] [(pys "1", pys "m.rgz")]
        [(pys "n.gpf", pys "A"), (pys "m.rgz", pys "M")] [pys "m.rgz"] =
      some [pys "//1 m.rgz\n", pys "\n2 n.gpf", pys "\n3 m.rgz"] ∧
    (∃ n, next_number [(pys "1", pys "m.rgz")] = some n ∧
      [pys "//1 m.rgz\n", pys "\n2 n.gpf", pys "\n3 m.rgz"] =
        [pys "1 m.rgz\n"].map
          (rewrite_line (last_occurrences
            [(pys "n.gpf", pys "A"), (pys "m.rgz", pys "M")] [(pys "1", pys "m.rgz")]))
          ++ (append_entries n
              (added_files [(pys "n.gpf", pys "A"), (pys "m.rgz", pys "M")])).1
          ++ (append_entries (n + ((added_files
                [(pys "n.gpf", pys "A"), (pys "m.rgz", pys "M")]).length : Int))
              [pys "m.rgz"]).1 ∧
      added_files [(pys "n.gpf", pys "A"), (pys "m.rgz", pys "M")] =
        (([(pys "n.gpf", pys "A"), (pys "m.rgz", pys "M")].filter
          (fun p => decide (p.2 = pys "A"))).map Prod.fst) ∧
      List.Perm [pys "m.rgz"]
        ((([(pys "n.gpf", pys "A"), (pys "m.rgz", pys "M")].filter
          (fun p => decide (p.2 = pys "M"))).map Prod.fst).dedup) ∧
      (∀ l ∈ (append_entries n
          (added_files [(pys "n.gpf", pys "A"), (pys "m.rgz", pys "M")]
            ++ [pys "m.rgz"])).1, l.head? = some '\n')) :=
  ⟨by decide, by decide,
   claim5_amended [pys "1 m.rgz\n"] [(pys "1", pys "m.rgz")]
     [(pys "n.gpf", pys "A"), (pys "m.rgz", pys "M")] [pys "m.rgz"]
     [pys "//1 m.rgz\n", pys "\n2 n.gpf", pys "\n3 m.rgz"]
     (by decide) (by decide)⟩

theorem get_changes_from_skip_blank (l : PyStr) (hb : strip l = []) :
    ∀ (pre post : List PyStr) (acc : List (PyStr × PyStr)),
      get_changes_from acc (pre ++ l :: post) = get_changes_from acc (pre ++ post) := by
  intro pre
  induction pre with
  | nil =>
    intro post acc
    show get_changes_from acc (l :: post) = get_changes_from acc post
    simp [get_changes_from, hb]
  | cons a pre ih =>
    intro post acc
    show get_changes_from acc (a :: (pre ++ l :: post)) =
      get_changes_from acc (a :: (pre ++ post))
    simp only [get_changes_from]
    by_cases ha : strip a = []
    · rw [if_pos ha, if_pos ha]
      exact ih post acc
    · rw [if_neg ha, if_neg ha]
      cases hs : split1 '\t' (strip a) with
      | none => rfl
      | some p =>
        obtain ⟨st, fn⟩ := p
        cases hend : pyEndsWith fn (pys ".rgz") || pyEndsWith fn (pys ".gpf") with
        | true => simp only [hend, if_true]; exact ih post _
        | false => simp only [hend, Bool.false_eq_true, if_false]; exact ih post acc

theorem get_changes_from_none (l : PyStr) (hnb : strip l ≠ []) (hnt : '\t' ∉ l) :
    ∀ (lines : List PyStr) (acc : List (PyStr × PyStr)), l ∈ lines →
      get_changes_from acc lines = none := by
  have hsplit : split1 '\t' (strip l) = none := by
    rw [split1_eq_none_iff]
    intro hmem
    exact hnt (mem_of_mem_strip hmem)
  intro lines
  induction lines with
  | nil => intro acc h; exact absurd h (List.not_mem_nil l)
  | cons a rest ih =>
    intro acc h
    rcases List.mem_cons.mp h with h | h
    · subst h
      simp [get_changes_from, hnb, hsplit]
    · simp only [get_changes_from]
      by_cases ha : strip a = []
      · rw [if_pos ha]
        exact ih acc h
      · rw [if_neg ha]
        cases hs : split1 '\t' (strip a) with
        | none => rfl
        | some p =>
          obtain ⟨st, fn⟩ := p
          cases hend : pyEndsWith fn (pys ".rgz") || pyEndsWith fn (pys ".gpf") with
          | true => simp only [hend, if_true]; exact ih _ h
          | false => simp only [hend, Bool.false_eq_true, if_false]; exact ih acc h

/-- C6: the Change-Report Reader skips blank (whitespace-only) lines, and
any non-blank line containing no tab separator makes the whole run fail
with the uncaught unpack `ValueError` — the line is never silently
skipped. -/
theorem claim6 :
    (∀ (pre post : List PyStr) (l : PyStr), strip l = [] →
        get_changes (pre ++ l :: post) = get_changes (pre ++ post)) ∧
    (∀ (lines : List PyStr) (l : PyStr), l ∈ lines → strip l ≠ [] → '\t' ∉ l →
        get_changes lines = none) :=
  ⟨fun pre post l hb => get_changes_from_skip_blank l hb pre post [],
   fun lines l hm hnb hnt => get_changes_from_none l hnb hnt lines [] hm⟩

/-- C6, witness: the blank line `"  \n"` is skipped; the tab-less line
`notab.rgz` makes the Reader fail. -/
theorem claim6_witness :
    get_changes [pys "  \n", pys "A\tp/c.rgz\n"] = get_changes [pys "A\tp/c.rgz\n"] ∧
    get_changes [pys "A\tp/c.rgz\n", pys "notab.rgz\n"] = none :=
  ⟨claim6.1 [] [pys "A\tp/c.rgz\n"] (pys "  \n") (by decide),
   claim6.2 [pys "A\tp/c.rgz\n", pys "notab.rgz\n"] (pys "notab.rgz\n")
     (by decide) (by decide) (by decide)⟩

theorem cp_from_skip_comment (l : PyStr) (hcm : startsSlashSlash (strip l) = true) :
    ∀ (pre post : List PyStr) (acc : List (PyStr × PyStr)),
      current_patchfile_from acc (pre ++ l :: post) =
        current_patchfile_from acc (pre ++ post) := by
  intro pre
  induction pre with
  | nil =>
    intro post acc
    show current_patchfile_from acc (l :: post) = current_patchfile_from acc post
    have hstep : cp_step acc l = some acc := by simp [cp_step, hcm]
    simp only [current_patchfile_from, hstep]
  | cons a pre ih =>
    intro post acc
    show current_patchfile_from acc (a :: (pre ++ l :: post)) =
      current_patchfile_from acc (a :: (pre ++ post))
    simp only [current_patchfile_from]
    cases hstep : cp_step acc a with
    | none => rfl
    | some acc2 => exact ih post acc2

theorem cp_from_none (l : PyStr) (hcm : startsSlashSlash (strip l) = false)
    (hsp : ' ' ∉ l) :
    ∀ (lines : List PyStr) (acc : List (PyStr × PyStr)), l ∈ lines →
      current_patchfile_from acc lines = none := by
  have hstep : ∀ acc, cp_step acc l = none := by
    intro acc
    simp [cp_step, hcm, (split1_eq_none_iff ' ' l).mpr hsp]
  intro lines
  induction lines with
  | nil => intro acc h; exact absurd h (List.not_mem_nil l)
  | cons a rest ih =>
    intro acc h
    rcases List.mem_cons.mp h with h | h
    · subst h
      simp only [current_patchfile_from, hstep acc]
    · simp only [current_patchfile_from]
      cases hs : cp_step acc a with
      | none => rfl
      | some acc2 => exact ih acc2 h

theorem lookupKey_eq_none_of_not_mem_keys {k : PyStr} :
    ∀ {d : List (PyStr × PyStr)}, k ∉ d.map Prod.fst → lookupKey k d = none := by
  intro d
  induction d with
  | nil => intro _; rfl
  | cons p rest ih =>
    intro h
    obtain ⟨a, b⟩ := p
    simp only [List.map_cons, List.mem_cons] at h
    push_neg at h
    unfold lookupKey
    rw [if_neg (fun he => h.1 he.symm)]
    exact ih h.2

theorem cp_from_eq_pairs :
    ∀ (lines : List PyStr) (acc m ps : List (PyStr × PyStr)),
      current_patchfile_from acc lines = some m →
      manifestPairs lines = some ps →
      ((acc ++ ps).map Prod.fst).Nodup →
      m = acc ++ ps := by
  intro lines
  induction lines with
  | nil =>
    intro acc m ps h1 h2 _
    have hm : m = acc := (Option.some_inj.mp h1).symm
    have hps : ps = [] := (Option.some_inj.mp h2).symm
    simp [hm, hps]
  | cons l rest ih =>
    intro acc m ps h1 h2 hnd
    by_cases hcm : startsSlashSlash (strip l)
    · have hstep : cp_step acc l = some acc := by simp [cp_step, hcm]
      rw [show current_patchfile_from acc (l :: rest) = current_patchfile_from acc rest
        from by simp only [current_patchfile_from, hstep]] at h1
      rw [show manifestPairs (l :: rest) = manifestPairs rest
        from by simp [manifestPairs, hcm]] at h2
      exact ih acc m ps h1 h2 hnd
    · cases hs : split1 ' ' l with
      | none =>
        have hstep : cp_step acc l = none := by simp [cp_step, hcm, hs]
        rw [show current_patchfile_from acc (l :: rest) = none
          from by simp only [current_patchfile_from, hstep]] at h1
        exact Option.noConfusion h1
      | some p =>
        obtain ⟨num, file⟩ := p
        have hstep : cp_step acc l = some (dictSet acc num (strip file)) := by
          simp [cp_step, hcm, hs]
        have h1b : current_patchfile_from (dictSet acc num (strip file)) rest = some m := by
          rw [show current_patchfile_from acc (l :: rest) =
            current_patchfile_from (dictSet acc num (strip file)) rest
            from by simp only [current_patchfile_from, hstep]] at h1
          exact h1
        have hparse : parseManifestLine l = some (num, strip file) := by
          simp [parseManifestLine, hs]
        cases hmp : manifestPairs rest with
        | none =>
          rw [show manifestPairs (l :: rest) = none
            from by simp [manifestPairs, hcm, hparse, hmp]] at h2
          exact Option.noConfusion h2
        | some ps2 =>
          have h2b : ps = (num, strip file) :: ps2 := by
            rw [show manifestPairs (l :: rest) = some ((num, strip file) :: ps2)
              from by simp [manifestPairs, hcm, hparse, hmp]] at h2
            exact (Option.some_inj.mp h2).symm
          subst h2b
          have hrearr : acc ++ (num, strip file) :: ps2 =
              (acc ++ [(num, strip file)]) ++ ps2 := by
            rw [List.append_assoc]
            rfl
          have hnum : num ∉ acc.map Prod.fst := by
            rw [List.map_append] at hnd
            have hdisj := (List.nodup_append.mp hnd).2.2
            intro hmem
            exact (hdisj hmem) (by simp)
          have hfresh : dictSet acc num (strip file) = acc ++ [(num, strip file)] := by
            unfold dictSet
            rw [lookupKey_eq_none_of_not_mem_keys hnum]
            simp
          rw [hfresh] at h1b
          have hnd2 : (((acc ++ [(num, strip file)]) ++ ps2).map Prod.fst).Nodup :=
            hrearr ▸ hnd
          rw [ih (acc ++ [(num, strip file)]) m ps2 h1b hmp hnd2, ← hrearr]

/-- C7: the Manifest Reader skips comment lines (stripped form beginning
with two slashes); when the non-comment lines parse with pairwise-distinct
identifiers, the returned mapping is exactly their
`(identifier, stripped filename)` pairs in original file order — the
ordered mapping preserves file order for iteration; and any non-comment,
non-blank line lacking a space separator makes it fail with the uncaught
unpack `ValueError`. -/
theorem claim7 :
    (∀ (pre post : List PyStr) (l : PyStr), startsSlashSlash (strip l) = true →
        current_patchfile (pre ++ l :: post) = current_patchfile (pre ++ post)) ∧
    (∀ (lines : List PyStr) (m ps : List (PyStr × PyStr)),
        current_patchfile lines = some m → manifestPairs lines = some ps →
        (ps.map Prod.fst).Nodup → m = ps) ∧
    (∀ (lines : List PyStr) (l : PyStr), l ∈ lines →
        startsSlashSlash (strip l) = false → strip l ≠ [] → ' ' ∉ l →
        current_patchfile lines = none) :=
  ⟨fun pre post l h => cp_from_skip_comment l h pre post [],
   fun lines m ps h1 h2 h3 => cp_from_eq_pairs lines [] m ps h1 h2 (by simpa using h3),
   fun lines l hm hcm hnb hsp => cp_from_none l hcm hsp lines [] hm⟩

/-- C7, witness: a comment line is skipped; the two-line manifest is read
into its pairs in order; a space-less line makes the Reader fail. -/
theorem claim7_witness :
    current_patchfile [pys "//old\n", pys "1 a.rgz\n"] =
      current_patchfile [pys "1 a.rgz\n"] ∧
    [(pys "1", pys "a.rgz"), (pys "2", pys "b.gpf")] =
      [(pys "1", pys "a.rgz"), (pys "2", pys "b.gpf")] ∧
    current_patchfile [pys "1 a.rgz\n", pys "nospace\n"] = none :=
  ⟨claim7.1 [] [pys "1 a.rgz\n"] (pys "//old\n") (by decide),
   claim7.2.1 [pys "1 a.rgz\n", pys "2 b.gpf\n"]
     [(pys "1", pys "a.rgz"), (pys "2", pys "b.gpf")]
     [(pys "1", pys "a.rgz"), (pys "2", pys "b.gpf")]
     (by decide) (by decide) (by decide),
   claim7.2.2 [pys "1 a.rgz\n", pys "nospace\n"] (pys "nospace\n")
     (by decide) (by decide) (by decide) (by decide)⟩

/-- C9 (amended): a blank or whitespace-only manifest line always makes the
Manifest Updater fail with the uncaught unpack error (the line is not
skipped); the Manifest Reader fails on such a line only when the raw line
contains no space character (e.g. a newline-only line) — a whitespace-only
line that does contain a space is parsed by the Reader without error, into
an empty identifier and an empty filename. -/
theorem claim9_amended :
    (∀ (lines : List PyStr) (ve ch : List (PyStr × PyStr)) (mo : List PyStr) (l : PyStr),
        l ∈ lines → strip l = [] → update_file_entries lines ve ch mo = none) ∧
    (∀ (lines : List PyStr) (l : PyStr), l ∈ lines → strip l = [] → ' ' ∉ l →
        current_patchfile lines = none) ∧
    (∀ (acc : List (PyStr × PyStr)) (l : PyStr), strip l = [] → ' ' ∈ l →
        cp_step acc l ≠ none) := by
  refine ⟨fun lines ve ch mo l hl hb => update_none_of_blank ve ch mo hl hb, ?_, ?_⟩
  · intro lines l hm hb hsp
    have hcm : startsSlashSlash (strip l) = false := by rw [hb]; rfl
    exact cp_from_none l hcm hsp lines [] hm
  · intro acc l hb hsp
    have hcm : startsSlashSlash (strip l) = false := by rw [hb]; rfl
    cases hs : split1 ' ' l with
    | none => exact absurd hsp ((split1_eq_none_iff ' ' l).mp hs)
    | some p => simp [cp_step, hcm, hs]

/-- C9, witness: the Updater fails on a manifest with a tab-only line; the
Reader fails on a newline-only line; the Reader accepts the line `" \n"`. -/
theorem claim9_witness :
    update_file_entries [pys "1 a.rgz\n", pys "\t\n"] [(pys "1", pys "a.rgz")] [] [] = none ∧
    current_patchfile [pys "\n"] = none ∧
    cp_step [] (pys " \n") ≠ none :=
  ⟨claim9_amended.1 [pys "1 a.rgz\n", pys "\t\n"] [(pys "1", pys "a.rgz")] [] []
     (pys "\t\n") (by decide) (by decide),
   claim9_amended.2.1 [pys "\n"] (pys "\n") (by decide) (by decide) (by decide),
   claim9_amended.2.2 [] (pys " \n") (by decide) (by decide)⟩

/-! ### Trailing-newline behaviour (C10) -/

theorem getLast?_map_line (f : PyStr → PyStr) :
    ∀ ls : List PyStr, (ls.map f).getLast? = ls.getLast?.map f := by
  intro ls
  induction ls with
  | nil => rfl
  | cons a rest ih =>
    cases rest with
    | nil => rfl
    | cons b t =>
      rw [List.map_cons, List.map_cons, List.getLast?_cons_cons, ← List.map_cons, ih,
          List.getLast?_cons_cons]

theorem new_entry_line_getLast (n : Int) (f : PyStr) (hf : '\n' ∉ f) :
    (new_entry_line n f).getLast? ≠ some '\n' := by
  have hX : intToStr n ++ (' ' :: f) ≠ [] := by
    intro h
    rcases List.append_eq_nil.mp h with ⟨-, h2⟩
    exact List.noConfusion h2
  have h1 : (new_entry_line n f).getLast? = (' ' :: f).getLast? := by
    show (['\n'] ++ (intToStr n ++ (' ' :: f))).getLast? = _
    rw [List.getLast?_append_of_ne_nil ['\n'] hX,
        List.getLast?_append_of_ne_nil (intToStr n)
          (fun h => List.noConfusion h)]
  rw [h1]
  cases f with
  | nil => decide
  | cons c g =>
    have h2 : (' ' :: c :: g).getLast? = (c :: g).getLast? := by
      show ([' '] ++ (c :: g)).getLast? = _
      rw [List.getLast?_append_of_ne_nil [' '] (fun h => List.noConfusion h)]
    rw [h2]
    intro hcon
    refine hf ?_
    rcases List.mem_getLast?_eq_getLast (Option.mem_def.mpr hcon) with ⟨hh, he⟩
    rw [he]
    exact List.getLast_mem hh

theorem joinLines_append_entries_head (n : Int) (names : List PyStr) (h : names ≠ []) :
    (joinLines (append_entries n names).1).head? = some '\n' := by
  cases names with
  | nil => exact absurd rfl h
  | cons f fs =>
    show (joinLines (new_entry_line n f :: (append_entries (n + 1) fs).1)).head? = _
    rw [joinLines_cons,
        List.head?_append_of_ne_nil (new_entry_line n f) (fun h => List.noConfusion h)]
    rfl

theorem joinLines_append_entries_getLast (n : Int) (names : List PyStr)
    (hne : names ≠ []) (hf : ∀ f ∈ names, '\n' ∉ f) :
    (joinLines (append_entries n names).1).getLast? ≠ some '\n' := by
  have hels : ∀ l ∈ (append_entries n names).1, l ≠ [] := by
    intro l hl
    obtain ⟨m, f, -, hlf⟩ := mem_append_entries _ _ _ hl
    rw [hlf]
    exact fun hcon => List.noConfusion hcon
  have hlen : (append_entries n names).1 ≠ [] := by
    intro hcon
    have hle := append_entries_fst_length names n
    rw [hcon] at hle
    cases names with
    | nil => exact hne rfl
    | cons a b => simp at hle
  obtain ⟨last, h1, h2⟩ := joinLines_getLast? (append_entries n names).1 hels hlen
  rw [h2]
  have hmem : last ∈ (append_entries n names).1 := by
    rcases List.mem_getLast?_eq_getLast (Option.mem_def.mpr h1) with ⟨hh, he⟩
    rw [he]
    exact List.getLast_mem hh
  obtain ⟨m, f, hfmem, hlf⟩ := mem_append_entries _ _ _ hmem
  rw [hlf]
  exact new_entry_line_getLast m f (hf f hfmem)

theorem joinLines_rewritten_getLast (lo : List (PyStr × PyStr)) (text : PyStr)
    (hl : text.getLast? = some '\n') :
    (joinLines ((readlines text).map (rewrite_line lo))).getLast? = some '\n' := by
  have htext : text ≠ [] := by
    intro h
    rw [h] at hl
    exact Option.noConfusion hl
  have hlines : readlines text ≠ [] := by
    intro h
    have hj := joinLines_readlines text
    rw [h] at hj
    exact htext hj.symm
  have helems : ∀ l ∈ readlines text, l ≠ [] := fun l hl2 => ne_nil_of_mem_readlines hl2
  have hmels : ∀ l ∈ (readlines text).map (rewrite_line lo), l ≠ [] := by
    intro l hl2
    obtain ⟨a, ha, hfa⟩ := List.mem_map.mp hl2
    rcases rewrite_line_cases lo a with hc | hc
    · rw [← hfa, hc]; exact helems a ha
    · rw [← hfa, hc]; exact fun hcon => List.noConfusion hcon
  have hmne : (readlines text).map (rewrite_line lo) ≠ [] := by
    intro h
    exact hlines (List.map_eq_nil_iff.mp h)
  obtain ⟨lastM, hM1, hM2⟩ := joinLines_getLast? _ hmels hmne
  obtain ⟨lastL, hL1, hL2⟩ := joinLines_getLast? _ helems hlines
  have hLlast : lastL.getLast? = some '\n' := by
    rw [← hL2, joinLines_readlines, hl]
  have hMof : lastM = rewrite_line lo lastL := by
    rw [getLast?_map_line (rewrite_line lo) (readlines text), hL1] at hM1
    simpa using hM1.symm
  have hLne : lastL ≠ [] := by
    refine helems lastL ?_
    rcases List.mem_getLast?_eq_getLast (Option.mem_def.mpr hL1) with ⟨hh, he⟩
    rw [he]
    exact List.getLast_mem hh
  rw [hM2, hMof]
  rcases rewrite_line_cases lo lastL with hc | hc
  · rw [hc]
    exact hLlast
  · rw [hc]
    show (['/', '/'] ++ lastL).getLast? = some '\n'
    rw [List.getLast?_append_of_ne_nil ['/', '/'] hLne]
    exact hLlast

/-- Filenames carried by the change records contain no newline implies the
appended names contain none either. -/
theorem no_newline_names {ch : List (PyStr × PyStr)} {mo : List PyStr}
    (hnl : ∀ p ∈ ch, '\n' ∉ p.1) (hmo : List.Perm mo (modifiedDedup ch)) :
    ∀ f ∈ added_files ch ++ mo, '\n' ∉ f := by
  intro f hf
  have hof : ∀ (s : PyStr), f ∈ (ch.filter (fun p => decide (p.2 = s))).map Prod.fst →
      '\n' ∉ f := by
    intro s hm
    obtain ⟨p, hp, hpf⟩ := List.mem_map.mp hm
    rw [← hpf]
    exact hnl p (List.mem_filter.mp hp).1
  rcases List.mem_append.mp hf with hf | hf
  · exact hof (pys "A") hf
  · exact hof (pys "M") ((mem_modOrder_iff hmo f).mp hf)

/-- C10: whenever the Updater appends at least one new entry, each appended
entry is written with a leading newline and no trailing newline, so the
written file content ends without a final newline; and if the original
manifest text ended with a newline, the written content is the processed
original block (still ending with that newline) followed directly by the
appended block (starting with a newline) — a blank line between the last
original line and the first appended entry. -/
theorem claim10 (text : PyStr) (ve ch : List (PyStr × PyStr)) (mo out : List PyStr)
    (hnl : ∀ p ∈ ch, '\n' ∉ p.1)
    (hmo : List.Perm mo (modifiedDedup ch))
    (hne : added_files ch ++ mo ≠ [])
    (hup : update_file_entries (readlines text) ve ch mo = some out) :
    ∃ n updated, next_number ve = some n ∧
      comment_lines (last_occurrences ch ve) (readlines text) = some updated ∧
      out = updated ++ (append_entries n (added_files ch ++ mo)).1 ∧
      (∀ l ∈ (append_entries n (added_files ch ++ mo)).1,
          l.head? = some '\n' ∧ l.getLast? ≠ some '\n') ∧
      (joinLines out).getLast? ≠ some '\n' ∧
      (text.getLast? = some '\n' →
        joinLines out = joinLines updated
            ++ joinLines (append_entries n (added_files ch ++ mo)).1 ∧
        (joinLines updated).getLast? = some '\n' ∧
        (joinLines (append_entries n (added_files ch ++ mo)).1).head? = some '\n') := by
  obtain ⟨n, updated, hn, hc, hout⟩ := update_eq_some hup
  have hmap := comment_lines_eq_map hc
  have hnames := no_newline_names hnl hmo
  refine ⟨n, updated, hn, hc, hout, ?_, ?_, ?_⟩
  · intro l hl
    obtain ⟨m, f, hfmem, hlf⟩ := mem_append_entries _ _ _ hl
    constructor
    · rw [hlf]; rfl
    · rw [hlf]; exact new_entry_line_getLast m f (hnames f hfmem)
  · rw [hout, joinLines_append]
    have hjoin_ne : joinLines (append_entries n (added_files ch ++ mo)).1 ≠ [] := by
      intro hcon
      have hh := joinLines_append_entries_head n (added_files ch ++ mo) hne
      rw [hcon] at hh
      exact Option.noConfusion hh
    rw [List.getLast?_append_of_ne_nil _ hjoin_ne]
    exact joinLines_append_entries_getLast n (added_files ch ++ mo) hne hnames
  · intro hlast
    refine ⟨by rw [hout, joinLines_append], ?_, joinLines_append_entries_head n _ hne⟩
    rw [hmap]
    exact joinLines_rewritten_getLast (last_occurrences ch ve) text hlast

/-- C10, witness: appending `c.rgz` to the newline-terminated manifest
`1 a.rgz\n`. -/
theorem claim10_witness :
    update_file_entries (readlines (pys "1 a.rgz\n")) [(pys "1", pys "a.rgz")]
        [(pys "c.rgz", pys "A")] [] = some [pys "1 a.rgz\n", pys "\n2 c.rgz"] ∧
    (∃ n updated, next_number [(pys "1", pys "a.rgz")] = some n ∧
      comment_lines (last_occurrences [(pys "c.rgz", pys "A")] [(pys "1", pys "a.rgz")])
          (readlines (pys "1 a.rgz\n")) = some updated ∧
      [pys "1 a.rgz\n", pys "\n2 c.rgz"] =
        updated ++ (append_entries n
          (added_files [(pys "c.rgz", pys "A")] ++ ([] : List PyStr))).1 ∧
      (∀ l ∈ (append_entries n
          (added_files [(pys "c.rgz", pys "A")] ++ ([] : List PyStr))).1,
          l.head? = some '\n' ∧ l.getLast? ≠ some '\n') ∧
      (joinLines [pys "1 a.rgz\n", pys "\n2 c.rgz"]).getLast? ≠ some '\n' ∧
      ((pys "1 a.rgz\n").getLast? = some '\n' →
        joinLines [pys "1 a.rgz\n", pys "\n2 c.rgz"] = joinLines updated
            ++ joinLines (append_entries n
              (added_files [(pys "c.rgz", pys "A")] ++ ([] : List PyStr))).1 ∧
        (joinLines updated).getLast? = some '\n' ∧
        (joinLines (append_entries n
          (added_files [(pys "c.rgz", pys "A")] ++ ([] : List PyStr))).1).head? =
          some '\n')) :=
  ⟨by decide,
   claim10 (pys "1 a.rgz\n") [(pys "1", pys "a.rgz")] [(pys "c.rgz", pys "A")] []
     [pys "1 a.rgz\n", pys "\n2 c.rgz"] (by decide) (by decide) (by decide) (by decide)⟩

end UpdatePatch
